import Mathlib

/-!
Verification development for the loghub dataset converter
(`src/main.rs`).  The program converts `.tar.gz` and `.zip` archives
found in the working directory into flattened `<stem>_logs.txt` files.

Shallow embedding conventions:

* A byte is a `Nat` (0‑255 in practice); file contents are `List Nat`.
* The tar path reads each regular-file entry line by line via Rust's
  `BufRead::lines`, whose items are `io::Result<String>`: `Ok` carries
  the line with the trailing `\n` (and a `\r` directly before it)
  stripped, `Err` covers both invalid-UTF-8 lines and mid-stream read
  failures.  We embed an entry as the list of such items; the
  derivation of the items from raw bytes (`lineItemsOf`) mirrors
  `read_line` (split at `\n`, validate the read bytes as UTF-8, strip
  the terminator and a preceding `\r`).
* The output sink (`BufWriter<File>`) is a `Sink`: the bytes written so
  far, a count of `eprintln!` diagnostics, and an optional remaining
  write budget that lets us model a write failure mid-stream
  (`none` = writes never fail).
* Fallible operations return `Except Unit` (tar/zip iteration errors and
  write errors carry no interesting data for the properties at stake).
* UTF-8 validity is the byte-range automaton used by the Rust standard
  library (RFC 3629 table).
-/

set_option maxHeartbeats 1000000

namespace LoghubConverter

/-! ### UTF-8 validation (Rust `std` semantics) -/

/-- One step of the incremental UTF-8 acceptor.  The state
`(need, lo, hi)` means: `need` continuation bytes are still expected and
the next byte must lie in `[lo, hi]`; in the start state (`need = 0`)
the bounds are unused.  The byte-range table is the one used by the Rust
standard library's `str::from_utf8` (RFC 3629). -/
def utf8Next : Nat × Nat × Nat → Nat → Option (Nat × Nat × Nat) :=
  fun st b =>
    match st with
    | (0, _, _) =>
      if b ≤ 0x7F then some (0, 0x80, 0xBF)
      else if 0xC2 ≤ b ∧ b ≤ 0xDF then some (1, 0x80, 0xBF)
      else if b = 0xE0 then some (2, 0xA0, 0xBF)
      else if 0xE1 ≤ b ∧ b ≤ 0xEC then some (2, 0x80, 0xBF)
      else if b = 0xED then some (2, 0x80, 0x9F)
      else if 0xEE ≤ b ∧ b ≤ 0xEF then some (2, 0x80, 0xBF)
      else if b = 0xF0 then some (3, 0x90, 0xBF)
      else if 0xF1 ≤ b ∧ b ≤ 0xF3 then some (3, 0x80, 0xBF)
      else if b = 0xF4 then some (3, 0x80, 0x8F)
      else none
    | (n + 1, lo, hi) => if lo ≤ b ∧ b ≤ hi then some (n, 0x80, 0xBF) else none

/-- A byte list is valid UTF-8 iff the acceptor consumes it completely and
ends in the start state (no truncated multi-byte sequence). -/
def utf8Valid (l : List Nat) : Bool :=
  match l.foldl (fun st b => st.bind (fun s => utf8Next s b)) (some (0, 0x80, 0xBF)) with
  | some (0, _, _) => true
  | _ => false

/-! ### Splitting a byte stream into lines (Rust `BufRead` semantics) -/

/-- `segsOf acc bs` splits `bs` at each `\n` (byte 10), returning for each
segment its bytes (terminator excluded, accumulated in reverse in `acc`)
and whether it was `\n`-terminated.  A final non-empty unterminated
segment is also produced, exactly as `read_until`/`read_line` deliver
data to `BufRead::lines`. -/
def segsOf : List Nat → List Nat → List (List Nat × Bool)
  | acc, [] => if acc.isEmpty then [] else [(acc.reverse, false)]
  | acc, b :: bs =>
    if b = 10 then (acc.reverse, true) :: segsOf [] bs else segsOf (b :: acc) bs

/-- Remove one trailing `\r` (byte 13), mirroring the single
`line.pop()` that `Lines::next` performs after popping the `\n`. -/
def stripTrailCR (seg : List Nat) : List Nat :=
  if seg.getLast? = some 13 then seg.dropLast else seg

/-- Error cases of one `BufRead::lines` item. -/
inductive LineErr
  | invalidUtf8
  | ioRead
deriving DecidableEq

/-- One `lines()` item built from a raw segment.  `read_line` validates the
bytes it read (segment plus the `\n` when one was found) as UTF-8;
`Lines::next` then strips the `\n` and a `\r` directly before it.  An
unterminated final segment is delivered as-is (its trailing `\r`, if any,
is kept). -/
def lineItemOf (seg : List Nat) (term : Bool) : Except LineErr (List Nat) :=
  if utf8Valid (seg ++ (if term then [10] else [])) then
    .ok (if term then stripTrailCR seg else seg)
  else .error .invalidUtf8

/-- The stream of `lines()` items produced from an entry's raw bytes. -/
def lineItemsOf (content : List Nat) : List (Except LineErr (List Nat)) :=
  (segsOf [] content).map (fun p => lineItemOf p.1 p.2)

/-- Number of lines of a byte stream in the `BufRead::lines` sense
(a trailing `\n` does not open a further empty line). -/
def lineCount (bs : List Nat) : Nat := (segsOf [] bs).length

/-! ### The output sink -/

/-- The `BufWriter<File>` plus the process's error stream: bytes
successfully written, number of `eprintln!` diagnostics emitted, and an
optional remaining write budget used to model a write failure mid-stream
(`none`: writes always succeed; `some k`: a `write_all` of more than `k`
pending bytes fails). -/
structure Sink where
  out : List Nat
  diags : Nat
  budget : Option Nat
deriving DecidableEq

/-- `Write::write_all`: appends the bytes or fails when the budget is
exhausted. -/
def writeAll (s : Sink) (bs : List Nat) : Except Unit Sink :=
  match s.budget with
  | none => .ok { out := s.out ++ bs, diags := s.diags, budget := none }
  | some k =>
    if bs.length ≤ k then
      .ok { out := s.out ++ bs, diags := s.diags, budget := some (k - bs.length) }
    else .error ()

/-- The fresh sink handed to an extractor by the driver. -/
def sink0 : Sink := { out := [], diags := 0, budget := none }

/-! ### The tar.gz extractor (`stream_tar_gz`) -/

/-- Type tag of a tar entry header (`EntryType`); only `regular` passes the
`is_file()` filter. -/
inductive EntryType
  | regular
  | directory
  | symlink
  | special
deriving DecidableEq

/-- `tar::EntryType::is_file`. -/
def EntryType.is_file : EntryType → Bool
  | .regular => true
  | _ => false

instance {ε α : Type} [DecidableEq ε] [DecidableEq α] : DecidableEq (Except ε α) :=
  fun a b =>
    match a, b with
    | .ok x, .ok y =>
      if h : x = y then isTrue (by rw [h]) else isFalse (fun hc => h (by injection hc))
    | .ok _, .error _ => isFalse (fun hc => Except.noConfusion hc)
    | .error _, .ok _ => isFalse (fun hc => Except.noConfusion hc)
    | .error x, .error y =>
      if h : x = y then isTrue (by rw [h]) else isFalse (fun hc => h (by injection hc))

/-- A tar entry: its header type tag and the stream of `lines()` items its
content produces (see `lineItemsOf` for entries given by raw bytes). -/
structure TarEntry where
  etype : EntryType
  items : List (Except LineErr (List Nat))
deriving DecidableEq

/-- The inner loop of `stream_tar_gz` over one entry's `lines()` items:
`Ok(line)` is written followed by a single `\n` (either write may fail and
propagates); `Err(_)` prints a diagnostic and `continue`s with the next
item. -/
def writeTarLines : List (Except LineErr (List Nat)) → Sink → Except Unit Sink
  | [], s => .ok s
  | .ok line :: rest, s =>
    match writeAll s line with
    | .error e => .error e
    | .ok s1 =>
      match writeAll s1 [10] with
      | .error e => .error e
      | .ok s2 => writeTarLines rest s2
  | .error _ :: rest, s => writeTarLines rest { s with diags := s.diags + 1 }

/-- `stream_tar_gz`: iterate the archive's entries (`entry?` failures
propagate), skip non-regular entries, and run the per-line loop on regular
ones. -/
def stream_tar_gz : List (Except Unit TarEntry) → Sink → Except Unit Sink
  | [], s => .ok s
  | .error e :: _, _s => .error e
  | .ok en :: rest, s =>
    if en.etype.is_file then
      match writeTarLines en.items s with
      | .error e => .error e
      | .ok s1 => stream_tar_gz rest s1
    else stream_tar_gz rest s

/-- An archive whose entries are all readable and given by raw bytes. -/
def pureTarArchive (l : List (EntryType × List Nat)) : List (Except Unit TarEntry) :=
  l.map (fun p => .ok { etype := p.1, items := lineItemsOf p.2 })

/-! ### The zip extractor (`stream_zip`) -/

/-- A zip entry: the `is_file()` flag and the decompressed bytes. -/
structure ZipEntry where
  is_file : Bool
  content : List Nat
deriving DecidableEq

/-- `stream_zip`: iterate entries by index (`by_index(i)?` failures
propagate), and for each file entry copy its bytes verbatim
(`io::copy`) followed by a single `\n`; any copy/write failure
propagates. -/
def stream_zip : List (Except Unit ZipEntry) → Sink → Except Unit Sink
  | [], s => .ok s
  | .error e :: _, _s => .error e
  | .ok zf :: rest, s =>
    if zf.is_file then
      match writeAll s zf.content with
      | .error e => .error e
      | .ok s1 =>
        match writeAll s1 [10] with
        | .error e => .error e
        | .ok s2 => stream_zip rest s2
    else stream_zip rest s

/-! ### Specification-level output descriptions -/

/-- Bytes the tar per-line loop writes for a list of items: each `Ok` line
followed by one `\n`, each `Err` contributing nothing. -/
def tarOutBytes : List (Except LineErr (List Nat)) → List Nat
  | [] => []
  | .ok line :: rest => line ++ 10 :: tarOutBytes rest
  | .error _ :: rest => tarOutBytes rest

/-- Number of `Err` items (skipped lines / diagnostics). -/
def errCount : List (Except LineErr (List Nat)) → Nat
  | [] => 0
  | .ok _ :: rest => errCount rest
  | .error _ :: rest => errCount rest + 1

/-- Number of `Ok` items (lines actually written). -/
def okCount : List (Except LineErr (List Nat)) → Nat
  | [] => 0
  | .ok _ :: rest => okCount rest + 1
  | .error _ :: rest => okCount rest

/-- Bytes `stream_tar_gz` writes for a pure archive. -/
def tarArchiveBytes : List (EntryType × List Nat) → List Nat
  | [] => []
  | (t, c) :: rest =>
    (if t.is_file then tarOutBytes (lineItemsOf c) else []) ++ tarArchiveBytes rest

/-- Diagnostics `stream_tar_gz` emits for a pure archive. -/
def tarArchiveErrs : List (EntryType × List Nat) → Nat
  | [] => 0
  | (t, c) :: rest =>
    (if t.is_file then errCount (lineItemsOf c) else 0) + tarArchiveErrs rest

/-- Sum of source line counts across the regular-file entries. -/
def srcLinesFiles : List (EntryType × List Nat) → Nat
  | [] => 0
  | (t, c) :: rest => (if t.is_file then lineCount c else 0) + srcLinesFiles rest

/-- Sum of source line counts across all entries. -/
def srcLinesAll : List (EntryType × List Nat) → Nat
  | [] => 0
  | (_, c) :: rest => lineCount c + srcLinesAll rest

/-- Bytes `stream_zip` writes: each file entry's content verbatim plus one
`\n`. -/
def zipOutBytes : List ZipEntry → List Nat
  | [] => []
  | z :: rest => (if z.is_file then z.content ++ [10] else []) ++ zipOutBytes rest

/-- Sum of source line counts across the file entries of a zip archive. -/
def zipSrcLines : List ZipEntry → Nat
  | [] => 0
  | z :: rest => (if z.is_file then lineCount z.content else 0) + zipSrcLines rest

/-- Sum over file entries of (embedded `\n` count + 1): the zip output's
line count. -/
def zipNlPlusOne : List ZipEntry → Nat
  | [] => 0
  | z :: rest => (if z.is_file then z.content.count 10 + 1 else 0) + zipNlPlusOne rest

/-- Whether an extraction result is a success. -/
def exceptOk : Except Unit Sink → Bool
  | .ok _ => true
  | .error _ => false

/-! ### The driver (`main` and `dataset_stem`) -/

/-- `str::ends_with` on character lists, via matching reversed heads. -/
def headMatches : List Char → List Char → Bool
  | _, [] => true
  | [], _ :: _ => false
  | a :: as, b :: bs => a == b && headMatches as bs

/-- `fname.ends_with(s)`. -/
def listEndsWith (l s : List Char) : Bool := headMatches l.reverse s.reverse

/-- Split a file name at its last `.`: returns the parts before and after
it, or `none` when there is no dot. -/
def splitLastDot : List Char → Option (List Char × List Char)
  | [] => none
  | c :: cs =>
    match splitLastDot cs with
    | some (b, a) => some (c :: b, a)
    | none => if c = '.' then some ([], cs) else none

/-- Rust `Path::extension` on a file name: the part after the last dot,
except that a leading-dot-only name (such as `.gz`) has no extension. -/
def extension (name : List Char) : Option (List Char) :=
  match splitLastDot name with
  | none => none
  | some (b, a) => if b.isEmpty then none else some a

/-- `dataset_stem`: strip `.tar.gz` (checked first), else `.zip`, else
keep the name. -/
def dataset_stem (fname : List Char) : List Char :=
  if listEndsWith fname ".tar.gz".toList then fname.take (fname.length - 7)
  else if listEndsWith fname ".zip".toList then fname.take (fname.length - 4)
  else fname

/-- Per-candidate-file effect of the driver loop in `main`. -/
inductive DriverAction
  /-- The `continue` before any file is created (extension is neither
  `gz` nor `zip`). -/
  | skipped
  /-- The output file was created (truncating) but the dispatch `match`
  fell through to `_ => continue`: an empty output file remains. -/
  | createdEmpty (outName : List Char)
  /-- Dispatched to `stream_tar_gz` with the given output file. -/
  | runTarGz (outName : List Char)
  /-- Dispatched to `stream_zip` with the given output file. -/
  | runZip (outName : List Char)
deriving DecidableEq

/-- The driver's treatment of one regular file with the given name:
the extension pre-filter (`continue` when the extension is neither `gz`
nor `zip`), then `File::create` of `<dataset_stem>_logs.txt`, then the
dispatch `match` on the extension with the `ends_with(".tar.gz")` guard,
whose fall-through `_ => continue` leaves the created file empty. -/
def driverAction (name : List Char) : DriverAction :=
  if extension name ≠ some "gz".toList ∧ extension name ≠ some "zip".toList then
    .skipped
  else
    let outName := dataset_stem name ++ "_logs.txt".toList
    match extension name with
    | some e =>
      if e = "gz".toList then
        if listEndsWith name ".tar.gz".toList then .runTarGz outName
        else .createdEmpty outName
      else if e = "zip".toList then .runZip outName
      else .createdEmpty outName
    | none => .createdEmpty outName

/-! ### Two runs over the same input (`File::create` truncation) -/

/-- Modelled from the Rust standard library: `File::create` truncates, so
the freshly created output file is empty whatever its prior content. -/
def createTruncated (_prior : List Nat) : List Nat := []

/-- One driver run over a tar.gz archive: create (truncate) the output
file, stream into it, and return its final content on success. -/
def runTarGzFile (prior : List Nat) (entries : List (Except Unit TarEntry)) :
    Except Unit (List Nat) :=
  match stream_tar_gz entries { out := createTruncated prior, diags := 0, budget := none } with
  | .ok s => .ok s.out
  | .error e => .error e

/-- One driver run over a zip archive, as `runTarGzFile`. -/
def runZipFile (prior : List Nat) (entries : List (Except Unit ZipEntry)) :
    Except Unit (List Nat) :=
  match stream_zip entries { out := createTruncated prior, diags := 0, budget := none } with
  | .ok s => .ok s.out
  | .error e => .error e

/-! ### Substring occurrence (for the CRLF property) -/

/-- `startsWithSeq l p`: `p` is an initial run of `l`. -/
def startsWithSeq : List Nat → List Nat → Bool
  | _, [] => true
  | [], _ :: _ => false
  | a :: as, b :: bs => a == b && startsWithSeq as bs

/-- `containsSeq l p`: `p` occurs contiguously somewhere in `l`. -/
def containsSeq (l p : List Nat) : Bool :=
  startsWithSeq l p ||
    match l with
    | [] => false
    | _ :: t => containsSeq t p

/-- Whether the part of the stream after its last `\n` (together with the
pending reversed bytes `acc`) is non-empty, i.e. whether `segsOf` produces
a final unterminated segment. -/
def tailNonempty : List Nat → List Nat → Bool
  | acc, [] => !acc.isEmpty
  | acc, b :: bs => if b = 10 then tailNonempty [] bs else tailNonempty (b :: acc) bs

/-! ### Helper lemmas -/

theorem writeTarLines_none (items : List (Except LineErr (List Nat))) :
    ∀ o d, writeTarLines items { out := o, diags := d, budget := none } =
      .ok { out := o ++ tarOutBytes items, diags := d + errCount items, budget := none } := by
  induction items with
  | nil => intro o d; simp [writeTarLines, tarOutBytes, errCount]
  | cons i rest ih =>
    intro o d
    cases i with
    | ok line =>
      simp [writeTarLines, writeAll, tarOutBytes, errCount, ih]
    | error e =>
      simp only [writeTarLines, tarOutBytes, errCount]
      rw [ih]
      simp [Nat.add_assoc, Nat.add_comm 1]

theorem stream_tar_gz_pure (l : List (EntryType × List Nat)) :
    ∀ o d, stream_tar_gz (pureTarArchive l) { out := o, diags := d, budget := none } =
      .ok { out := o ++ tarArchiveBytes l, diags := d + tarArchiveErrs l, budget := none } := by
  induction l with
  | nil => intro o d; simp [pureTarArchive, stream_tar_gz, tarArchiveBytes, tarArchiveErrs]
  | cons p rest ih =>
    intro o d
    by_cases hf : p.1.is_file
    · simp only [pureTarArchive, List.map_cons, stream_tar_gz, hf, if_true,
        writeTarLines_none]
      rw [show (pureTarArchive rest) = rest.map
        (fun p => .ok { etype := p.1, items := lineItemsOf p.2 }) from rfl] at ih
      rw [ih]
      simp [tarArchiveBytes, tarArchiveErrs, hf, Nat.add_assoc]
    · simp only [pureTarArchive, List.map_cons, stream_tar_gz, hf, if_false]
      rw [show (pureTarArchive rest) = rest.map
        (fun p => .ok { etype := p.1, items := lineItemsOf p.2 }) from rfl] at ih
      rw [ih]
      simp [tarArchiveBytes, tarArchiveErrs, hf]

theorem stream_zip_pure (zl : List ZipEntry) :
    ∀ o d, stream_zip (zl.map .ok) { out := o, diags := d, budget := none } =
      .ok { out := o ++ zipOutBytes zl, diags := d, budget := none } := by
  induction zl with
  | nil => intro o d; simp [stream_zip, zipOutBytes]
  | cons z rest ih =>
    intro o d
    by_cases hf : z.is_file
    · simp only [List.map_cons, stream_zip, hf, if_true, writeAll]
      rw [ih]
      simp [zipOutBytes, hf]
    · simp only [List.map_cons, stream_zip, hf, if_false]
      rw [ih]
      simp [zipOutBytes, hf]

theorem segsOf_length (bs : List Nat) :
    ∀ acc, (segsOf acc bs).length =
      bs.count 10 + (if tailNonempty acc bs then 1 else 0) := by
  induction bs with
  | nil => intro acc; by_cases h : acc.isEmpty <;> simp [segsOf, tailNonempty, h]
  | cons b bs ih =>
    intro acc
    by_cases hb : b = 10
    · subst hb
      simp [segsOf, tailNonempty, ih, List.count_cons]
      omega
    · simp [segsOf, tailNonempty, hb, ih, List.count_cons]

theorem tailNonempty_of_last10 (bs : List Nat) :
    ∀ acc, bs.getLast? = some 10 → tailNonempty acc bs = false := by
  induction bs with
  | nil => intro acc h; simp at h
  | cons b bs ih =>
    intro acc h
    cases bs with
    | nil =>
      simp at h
      subst h
      simp [tailNonempty]
    | cons b2 bs2 =>
      have h2 : (b2 :: bs2).getLast? = some 10 := by
        simpa [List.getLast?_cons_cons] using h
      by_cases hb : b = 10
      · rw [show tailNonempty acc (b :: b2 :: bs2) = tailNonempty [] (b2 :: bs2) by
          simp [tailNonempty, hb]]
        exact ih _ h2
      · rw [show tailNonempty acc (b :: b2 :: bs2) = tailNonempty (b :: acc) (b2 :: bs2) by
          simp [tailNonempty, hb]]
        exact ih _ h2

/-- A byte stream is newline-closed when it is empty or ends with `\n`;
all extractor outputs are of this shape, and for such streams the line
count is exactly the number of `\n` bytes. -/
def nlClosed (bs : List Nat) : Prop := bs = [] ∨ bs.getLast? = some 10

theorem lineCount_of_nlClosed (bs : List Nat) (h : nlClosed bs) :
    lineCount bs = bs.count 10 := by
  rcases h with h | h
  · subst h; simp [lineCount, segsOf]
  · rw [lineCount, segsOf_length, tailNonempty_of_last10 _ _ h]
    simp

theorem nlClosed_append {a b : List Nat} (ha : nlClosed a) (hb : nlClosed b) :
    nlClosed (a ++ b) := by
  rcases hb with hb | hb
  · subst hb; simpa using ha
  · right
    rcases b with _ | ⟨x, xs⟩
    · simp at hb
    · rw [List.getLast?_append, hb]
      rfl

theorem nlClosed_snoc10 (c : List Nat) : nlClosed (c ++ [10]) := by
  right; simp

theorem nlClosed_tarOutBytes (items : List (Except LineErr (List Nat))) :
    nlClosed (tarOutBytes items) := by
  induction items with
  | nil => left; rfl
  | cons i rest ih =>
    cases i with
    | ok line =>
      have : tarOutBytes (.ok line :: rest) = (line ++ [10]) ++ tarOutBytes rest := by
        simp [tarOutBytes]
      rw [this]
      exact nlClosed_append (nlClosed_snoc10 line) ih
    | error e => simpa [tarOutBytes] using ih

theorem nlClosed_tarArchiveBytes (l : List (EntryType × List Nat)) :
    nlClosed (tarArchiveBytes l) := by
  induction l with
  | nil => left; rfl
  | cons p rest ih =>
    rw [show tarArchiveBytes (p :: rest) =
      (if p.1.is_file then tarOutBytes (lineItemsOf p.2) else []) ++ tarArchiveBytes rest
      from rfl]
    by_cases hf : p.1.is_file
    · simpa [hf] using nlClosed_append (nlClosed_tarOutBytes _) ih
    · simpa [hf] using ih

theorem nlClosed_zipOutBytes (zl : List ZipEntry) : nlClosed (zipOutBytes zl) := by
  induction zl with
  | nil => left; rfl
  | cons z rest ih =>
    rw [show zipOutBytes (z :: rest) =
      (if z.is_file then z.content ++ [10] else []) ++ zipOutBytes rest from rfl]
    by_cases hf : z.is_file
    · simpa [hf] using nlClosed_append (nlClosed_snoc10 _) ih
    · simpa [hf] using ih

theorem segsOf_no10 (bs : List Nat) :
    ∀ acc, (∀ x ∈ acc, x ≠ 10) →
      ∀ seg t, (seg, t) ∈ segsOf acc bs → 10 ∉ seg := by
  induction bs with
  | nil =>
    intro acc hacc seg t hm
    by_cases h : acc.isEmpty
    · simp [segsOf, h] at hm
    · simp [segsOf, h] at hm
      intro hmem
      exact hacc 10 (by rw [← List.mem_reverse, ← hm.1]; exact hmem) rfl
  | cons b bs ih =>
    intro acc hacc seg t hm
    by_cases hb : b = 10
    · subst hb
      simp [segsOf] at hm
      rcases hm with ⟨h1, _⟩ | hm
      · intro hmem
        exact hacc 10 (by rw [← List.mem_reverse, ← h1]; exact hmem) rfl
      · exact ih [] (by simp) seg t hm
    · rw [show segsOf acc (b :: bs) = segsOf (b :: acc) bs by simp [segsOf, hb]] at hm
      refine ih (b :: acc) ?_ seg t hm
      intro x hx
      rcases List.mem_cons.mp hx with h | h
      · subst h; exact hb
      · exact hacc x h

theorem mem_dropLast_mem {l : List Nat} {x : Nat} (h : x ∈ l.dropLast) : x ∈ l :=
  List.dropLast_subset l h

theorem lineItemsOf_ok_no10 (c : List Nat) :
    ∀ l, .ok l ∈ lineItemsOf c → 10 ∉ l := by
  intro l hm
  simp only [lineItemsOf, List.mem_map] at hm
  obtain ⟨⟨seg, t⟩, hseg, hitem⟩ := hm
  have hno : 10 ∉ seg := segsOf_no10 c [] (by simp) seg t hseg
  simp only [lineItemOf] at hitem
  by_cases hv : utf8Valid (seg ++ (if t then [10] else [])) <;> simp [hv] at hitem
  cases t with
  | true =>
    simp at hitem
    rw [← hitem]
    simp only [stripTrailCR]
    by_cases h13 : seg.getLast? = some 13
    · simp [h13]
      intro hmem
      exact hno (mem_dropLast_mem hmem)
    · simpa [h13] using hno
  | false => simpa [← hitem] using hno

theorem count_tarOutBytes (items : List (Except LineErr (List Nat)))
    (h : ∀ l, .ok l ∈ items → 10 ∉ l) :
    (tarOutBytes items).count 10 = okCount items := by
  induction items with
  | nil => simp [tarOutBytes, okCount]
  | cons i rest ih =>
    have hr : ∀ l, .ok l ∈ rest → 10 ∉ l := fun l hm => h l (by simp [hm])
    cases i with
    | ok line =>
      have hl : 10 ∉ line := h line (by simp)
      simp [tarOutBytes, okCount, List.count_append, List.count_cons, ih hr,
        List.count_eq_zero.mpr hl]
    | error e => simpa [tarOutBytes, okCount] using ih hr

theorem okCount_add_errCount (items : List (Except LineErr (List Nat))) :
    okCount items + errCount items = items.length := by
  induction items with
  | nil => rfl
  | cons i rest ih =>
    cases i with
    | ok l => simp [okCount, errCount, ← ih]; omega
    | error e => simp [okCount, errCount, ← ih]; omega

theorem lineItemsOf_length (c : List Nat) : (lineItemsOf c).length = lineCount c := by
  simp [lineItemsOf, lineCount]

theorem count_tarOutBytes_lineItems (c : List Nat) :
    (tarOutBytes (lineItemsOf c)).count 10 = okCount (lineItemsOf c) :=
  count_tarOutBytes _ (lineItemsOf_ok_no10 c)

theorem lineCount_tarOutBytes_lineItems (c : List Nat) :
    lineCount (tarOutBytes (lineItemsOf c)) = okCount (lineItemsOf c) := by
  rw [lineCount_of_nlClosed _ (nlClosed_tarOutBytes _), count_tarOutBytes_lineItems]

theorem count_tarArchiveBytes (l : List (EntryType × List Nat)) :
    (tarArchiveBytes l).count 10 + tarArchiveErrs l = srcLinesFiles l := by
  induction l with
  | nil => simp [tarArchiveBytes, tarArchiveErrs, srcLinesFiles]
  | cons p rest ih =>
    have hone : (tarOutBytes (lineItemsOf p.2)).count 10 + errCount (lineItemsOf p.2) =
        lineCount p.2 := by
      rw [count_tarOutBytes_lineItems, ← lineItemsOf_length p.2]
      exact okCount_add_errCount _
    rw [show tarArchiveBytes (p :: rest) =
        (if p.1.is_file then tarOutBytes (lineItemsOf p.2) else []) ++ tarArchiveBytes rest
        from rfl,
      show tarArchiveErrs (p :: rest) =
        (if p.1.is_file then errCount (lineItemsOf p.2) else 0) + tarArchiveErrs rest
        from rfl,
      show srcLinesFiles (p :: rest) =
        (if p.1.is_file then lineCount p.2 else 0) + srcLinesFiles rest from rfl,
      List.count_append]
    by_cases hf : p.1.is_file
    · simp only [hf, if_true]
      omega
    · simp [hf]; omega

theorem srcLinesFiles_le_all (l : List (EntryType × List Nat)) :
    srcLinesFiles l ≤ srcLinesAll l := by
  induction l with
  | nil => simp [srcLinesFiles, srcLinesAll]
  | cons p rest ih =>
    simp only [srcLinesFiles, srcLinesAll]
    by_cases hf : p.1.is_file <;> simp [hf] <;> omega

theorem count_zipOutBytes (zl : List ZipEntry) :
    (zipOutBytes zl).count 10 = zipNlPlusOne zl := by
  induction zl with
  | nil => simp [zipOutBytes, zipNlPlusOne]
  | cons z rest ih =>
    rw [show zipOutBytes (z :: rest) =
      (if z.is_file then z.content ++ [10] else []) ++ zipOutBytes rest from rfl]
    by_cases hf : z.is_file
    · simp [hf, List.count_append, zipNlPlusOne, ih]
      omega
    · simp [hf, zipNlPlusOne, ih]

theorem lineCount_zipOutBytes (zl : List ZipEntry) :
    lineCount (zipOutBytes zl) = zipNlPlusOne zl := by
  rw [lineCount_of_nlClosed _ (nlClosed_zipOutBytes _), count_zipOutBytes]

theorem stream_tar_gz_error_after (pre : List (Except Unit TarEntry)) :
    ∀ post s e, exceptOk (stream_tar_gz (pre ++ .error e :: post) s) = false := by
  induction pre with
  | nil => intro post s e; simp [stream_tar_gz, exceptOk]
  | cons i pre ih =>
    intro post s e
    cases i with
    | error e2 => simp [stream_tar_gz, exceptOk]
    | ok en =>
      by_cases hf : en.etype.is_file
      · rw [show stream_tar_gz ((.ok en :: pre) ++ .error e :: post) s =
          (match writeTarLines en.items s with
           | .error e2 => .error e2
           | .ok s1 => stream_tar_gz (pre ++ .error e :: post) s1) by
            simp [stream_tar_gz, hf]]
        cases hw : writeTarLines en.items s with
        | error e3 => simp [exceptOk]
        | ok s1 => simpa using ih post s1 e
      · rw [show stream_tar_gz ((.ok en :: pre) ++ .error e :: post) s =
          stream_tar_gz (pre ++ .error e :: post) s by simp [stream_tar_gz, hf]]
        exact ih post s e

theorem stream_zip_error_after (pre : List (Except Unit ZipEntry)) :
    ∀ post s e, exceptOk (stream_zip (pre ++ .error e :: post) s) = false := by
  induction pre with
  | nil => intro post s e; simp [stream_zip, exceptOk]
  | cons i pre ih =>
    intro post s e
    cases i with
    | error e2 => simp [stream_zip, exceptOk]
    | ok zf =>
      by_cases hf : zf.is_file
      · rw [show stream_zip ((.ok zf :: pre) ++ .error e :: post) s =
          (match writeAll s zf.content with
           | .error e2 => .error e2
           | .ok s1 =>
             match writeAll s1 [10] with
             | .error e2 => .error e2
             | .ok s2 => stream_zip (pre ++ .error e :: post) s2) by
            simp [stream_zip, hf]]
        cases hw : writeAll s zf.content with
        | error e3 => simp [exceptOk]
        | ok s1 =>
          have hred : exceptOk (match writeAll s1 [10] with
              | Except.error e2 => (Except.error e2 : Except Unit Sink)
              | Except.ok s2 => stream_zip (pre ++ Except.error e :: post) s2) = false := by
            cases hw2 : writeAll s1 [10] with
            | error e3 => simp [exceptOk]
            | ok s2 => simpa using ih post s2 e
          exact hred
      · rw [show stream_zip ((.ok zf :: pre) ++ .error e :: post) s =
          stream_zip (pre ++ .error e :: post) s by simp [stream_zip, hf]]
        exact ih post s e

theorem writeTarLines_budget (items : List (Except LineErr (List Nat))) :
    ∀ o d k s', writeTarLines items { out := o, diags := d, budget := some k } = .ok s' →
      (tarOutBytes items).length ≤ k ∧
      s'.budget = some (k - (tarOutBytes items).length) := by
  induction items with
  | nil =>
    intro o d k s' h
    simp [writeTarLines] at h
    simp [← h, tarOutBytes]
  | cons i rest ih =>
    intro o d k s' h
    cases i with
    | ok line =>
      simp only [writeTarLines, writeAll] at h
      by_cases h1 : line.length ≤ k
      · rw [if_pos h1] at h
        simp only at h
        by_cases h2 : 1 ≤ k - line.length
        · rw [if_pos (by simpa using h2)] at h
          simp only at h
          obtain ⟨hle, hb⟩ := ih _ _ _ _ h
          simp only [List.length_cons, List.length_nil] at hle hb
          constructor
          · simp only [tarOutBytes, List.length_append, List.length_cons]
            omega
          · rw [hb]
            simp only [tarOutBytes, List.length_append, List.length_cons]
            congr 1
            omega
        · rw [if_neg (by simpa using h2)] at h
          exact absurd h (by simp)
      · rw [if_neg h1] at h
        exact absurd h (by simp)
    | error e =>
      simp only [writeTarLines] at h
      obtain ⟨hle, hb⟩ := ih _ _ _ _ h
      exact ⟨by simpa [tarOutBytes] using hle, by simpa [tarOutBytes] using hb⟩

theorem stream_tar_gz_budget (l : List (EntryType × List Nat)) :
    ∀ o d k s',
      stream_tar_gz (pureTarArchive l) { out := o, diags := d, budget := some k } = .ok s' →
      (tarArchiveBytes l).length ≤ k := by
  induction l with
  | nil => intro o d k s' _; simp [tarArchiveBytes]
  | cons p rest ih =>
    intro o d k s' h
    rw [show tarArchiveBytes (p :: rest) =
      (if p.1.is_file then tarOutBytes (lineItemsOf p.2) else []) ++ tarArchiveBytes rest
      from rfl, List.length_append]
    by_cases hf : p.1.is_file
    · rw [show stream_tar_gz (pureTarArchive (p :: rest))
          { out := o, diags := d, budget := some k } =
        (match writeTarLines (lineItemsOf p.2) { out := o, diags := d, budget := some k } with
         | .error e => .error e
         | .ok s1 => stream_tar_gz (pureTarArchive rest) s1) by
          simp [pureTarArchive, stream_tar_gz, hf]] at h
      cases hw : writeTarLines (lineItemsOf p.2) { out := o, diags := d, budget := some k } with
      | error e => rw [hw] at h; exact absurd h (by simp)
      | ok s1 =>
        rw [hw] at h
        simp only at h
        obtain ⟨hle, hb⟩ := writeTarLines_budget _ _ _ _ _ hw
        obtain ⟨o1, d1, b1⟩ := s1
        simp only at hb
        subst hb
        have := ih _ _ _ _ h
        simp only [hf, if_true]
        omega
    · rw [show stream_tar_gz (pureTarArchive (p :: rest))
          { out := o, diags := d, budget := some k } =
        stream_tar_gz (pureTarArchive rest) { out := o, diags := d, budget := some k } by
          simp [pureTarArchive, stream_tar_gz, hf]] at h
      have := ih _ _ _ _ h
      simp only [hf, if_false]
      simpa using this

theorem stream_zip_budget (zl : List ZipEntry) :
    ∀ o d k s', stream_zip (zl.map .ok) { out := o, diags := d, budget := some k } = .ok s' →
      (zipOutBytes zl).length ≤ k := by
  induction zl with
  | nil => intro o d k s' _; simp [zipOutBytes]
  | cons z rest ih =>
    intro o d k s' h
    rw [show zipOutBytes (z :: rest) =
      (if z.is_file then z.content ++ [10] else []) ++ zipOutBytes rest from rfl,
      List.length_append]
    by_cases hf : z.is_file
    · simp only [List.map_cons, stream_zip, hf, if_true, writeAll] at h
      by_cases h1 : z.content.length ≤ k
      · rw [if_pos h1] at h
        simp only at h
        by_cases h2 : 1 ≤ k - z.content.length
        · rw [if_pos (by simpa using h2)] at h
          simp only at h
          have := ih _ _ _ _ h
          simp only [List.length_cons, List.length_nil, Nat.zero_add] at this
          simp only [hf, if_true, List.length_append, List.length_cons, List.length_nil,
            Nat.zero_add]
          omega
        · rw [if_neg (by simpa using h2)] at h
          exact absurd h (by simp)
      · rw [if_neg h1] at h
        exact absurd h (by simp)
    · simp only [List.map_cons, stream_zip, hf, if_false] at h
      have := ih _ _ _ _ h
      simp only [hf, if_false]
      simpa using this

theorem headMatches_self_append (s : List Char) : ∀ t, headMatches (s ++ t) s = true := by
  induction s with
  | nil => intro t; cases t <;> rfl
  | cons a s ih => intro t; simpa [headMatches] using ih t

theorem headMatches_decomp (s : List Char) :
    ∀ l, headMatches l s = true → ∃ t, l = s ++ t := by
  induction s with
  | nil => intro l _; exact ⟨l, rfl⟩
  | cons b bs ih =>
    intro l h
    cases l with
    | nil => simp [headMatches] at h
    | cons a as =>
      simp only [headMatches, Bool.and_eq_true, beq_iff_eq] at h
      obtain ⟨t, ht⟩ := ih as h.2
      exact ⟨t, by rw [h.1, ht]; rfl⟩

theorem listEndsWith_intro (pre s : List Char) : listEndsWith (pre ++ s) s = true := by
  rw [listEndsWith, List.reverse_append]
  exact headMatches_self_append _ _

theorem listEndsWith_decomp {l s : List Char} (h : listEndsWith l s = true) :
    ∃ pre, l = pre ++ s := by
  obtain ⟨t, ht⟩ := headMatches_decomp s.reverse l.reverse h
  refine ⟨t.reverse, ?_⟩
  have := congrArg List.reverse ht
  simpa using this

theorem splitLastDot_decomp : ∀ l b a, splitLastDot l = some (b, a) → l = b ++ '.' :: a := by
  intro l
  induction l with
  | nil => intro b a h; simp [splitLastDot] at h
  | cons c cs ih =>
    intro b a h
    simp only [splitLastDot] at h
    cases hd : splitLastDot cs with
    | some p =>
      rw [hd] at h
      obtain ⟨b2, a2⟩ := p
      simp only [Option.some.injEq, Prod.mk.injEq] at h
      rw [← h.1, ← h.2, ih b2 a2 hd]
      rfl
    | none =>
      rw [hd] at h
      by_cases hc : c = '.'
      · rw [if_pos hc] at h
        simp only [Option.some.injEq, Prod.mk.injEq] at h
        rw [← h.1, ← h.2, hc]
        rfl
      · rw [if_neg hc] at h
        exact absurd h (by simp)

theorem splitLastDot_none_of_noDot : ∀ l, (∀ c ∈ l, c ≠ '.') → splitLastDot l = none := by
  intro l
  induction l with
  | nil => intro _; rfl
  | cons c cs ih =>
    intro h
    have hcs := ih (fun x hx => h x (by simp [hx]))
    simp only [splitLastDot, hcs]
    rw [if_neg (h c (by simp))]

theorem splitLastDot_append (b a : List Char) (ha : ∀ c ∈ a, c ≠ '.') :
    splitLastDot (b ++ '.' :: a) = some (b, a) := by
  induction b with
  | nil => simp [splitLastDot, splitLastDot_none_of_noDot a ha]
  | cons c cs ih => simp [splitLastDot, ih]

theorem extension_of_decomp (b a : List Char) (ha : ∀ c ∈ a, c ≠ '.') (hb : b ≠ []) :
    extension (b ++ '.' :: a) = some a := by
  rw [extension, splitLastDot_append b a ha]
  simp [hb]

theorem extension_decomp {name e : List Char} (h : extension name = some e) :
    ∃ b, b ≠ [] ∧ name = b ++ '.' :: e := by
  rw [extension] at h
  cases hd : splitLastDot name with
  | none => rw [hd] at h; exact absurd h (by simp)
  | some p =>
    obtain ⟨b, a⟩ := p
    rw [hd] at h
    have h2 : (if b.isEmpty = true then (none : Option (List Char)) else some a) = some e := h
    by_cases hb : b.isEmpty
    · rw [if_pos hb] at h2; exact absurd h2 (by simp)
    · rw [if_neg hb] at h2
      simp only [Option.some.injEq] at h2
      subst h2
      exact ⟨b, by simpa [List.isEmpty_iff] using hb, splitLastDot_decomp name b a hd⟩

theorem ends_tarGz_extension {name : List Char}
    (h : listEndsWith name ".tar.gz".toList = true) :
    extension name = some "gz".toList := by
  obtain ⟨pre, hp⟩ := listEndsWith_decomp h
  have : name = (pre ++ ['.', 't', 'a', 'r']) ++ '.' :: ['g', 'z'] := by
    rw [hp, List.append_assoc]; rfl
  rw [this, extension_of_decomp _ _ (by decide) (by simp)]
  rfl

theorem ends_zip_extension {name : List Char}
    (h : listEndsWith name ".zip".toList = true) (hne : name ≠ ".zip".toList) :
    extension name = some "zip".toList := by
  obtain ⟨pre, hp⟩ := listEndsWith_decomp h
  have hpre : pre ≠ [] := by
    intro hnil
    rw [hnil] at hp
    exact hne hp
  have : name = pre ++ '.' :: ['z', 'i', 'p'] := by rw [hp]; rfl
  rw [this, extension_of_decomp _ _ (by decide) hpre]
  rfl

theorem ext_getLast {name e : List Char} {c : Char} (h : extension name = some e)
    (hc : e.getLast? = some c) : name.getLast? = some c := by
  obtain ⟨b, _, hdec⟩ := extension_decomp h
  rw [hdec, List.getLast?_append]
  cases e with
  | nil => simp at hc
  | cons x xs =>
    rw [show ('.' :: x :: xs).getLast? = (x :: xs).getLast? from List.getLast?_cons_cons ..]
    rw [hc]
    rfl

theorem ext_gz_not_ends_zip {name : List Char}
    (h : extension name = some "gz".toList) :
    listEndsWith name ".zip".toList = false := by
  by_contra hz
  rw [Bool.not_eq_false] at hz
  obtain ⟨pre, hp⟩ := listEndsWith_decomp hz
  have h1 : name.getLast? = some 'z' := ext_getLast h (by rfl)
  have h2 : name.getLast? = some 'p' := by
    rw [hp, show pre ++ ".zip".toList = (pre ++ ['.', 'z', 'i']) ++ ['p'] from by simp,
      List.getLast?_concat]
  rw [h1] at h2
  simp at h2

theorem ends_last {name s : List Char} {c : Char} (h : listEndsWith name s = true)
    (hs : s.getLast? = some c) : name.getLast? = some c := by
  obtain ⟨pre, hp⟩ := listEndsWith_decomp h
  rw [hp, List.getLast?_append, hs]
  rfl

theorem ends_zip_not_tarGz {name : List Char}
    (h : listEndsWith name ".zip".toList = true) :
    listEndsWith name ".tar.gz".toList = false := by
  by_contra htg
  rw [Bool.not_eq_false] at htg
  have h1 : name.getLast? = some 'p' := ends_last h (by rfl)
  have h2 : name.getLast? = some 'z' := ends_last htg (by rfl)
  rw [h1] at h2
  simp at h2

theorem take_strip (pre s : List Char) :
    (pre ++ s).take ((pre ++ s).length - s.length) = pre := by
  rw [List.length_append, show pre.length + s.length - s.length = pre.length from by omega]
  exact List.take_left pre s

theorem dataset_stem_of_tarGz {name : List Char}
    (h : listEndsWith name ".tar.gz".toList = true) :
    dataset_stem name = name.take (name.length - 7) := by
  rw [dataset_stem, if_pos h]

theorem dataset_stem_of_zip {name : List Char}
    (h : listEndsWith name ".zip".toList = true) :
    dataset_stem name = name.take (name.length - 4) := by
  rw [dataset_stem, if_neg (by rw [ends_zip_not_tarGz h]; simp), if_pos h]

theorem dataset_stem_plain {name : List Char}
    (h1 : listEndsWith name ".tar.gz".toList = false)
    (h2 : listEndsWith name ".zip".toList = false) :
    dataset_stem name = name := by
  rw [dataset_stem, if_neg (by rw [h1]; simp), if_neg (by rw [h2]; simp)]

theorem driverAction_of_tarGz {name : List Char}
    (h : listEndsWith name ".tar.gz".toList = true) :
    driverAction name = .runTarGz (name.take (name.length - 7) ++ "_logs.txt".toList) := by
  have hx : extension name = some "gz".toList := ends_tarGz_extension h
  have h' : listEndsWith name ['.', 't', 'a', 'r', '.', 'g', 'z'] = true := h
  simp [driverAction, hx, h, h', dataset_stem_of_tarGz h]

theorem driverAction_of_zip {name : List Char}
    (h : listEndsWith name ".zip".toList = true) (hne : name ≠ ".zip".toList) :
    driverAction name = .runZip (name.take (name.length - 4) ++ "_logs.txt".toList) := by
  have hx : extension name = some "zip".toList := ends_zip_extension h hne
  have h' : listEndsWith name ['.', 'z', 'i', 'p'] = true := h
  have hng : listEndsWith name ['.', 't', 'a', 'r', '.', 'g', 'z'] = false :=
    ends_zip_not_tarGz h
  simp [driverAction, hx, h, h', hng, dataset_stem_of_zip h]

theorem driverAction_skipped {name : List Char}
    (h1 : extension name ≠ some "gz".toList) (h2 : extension name ≠ some "zip".toList) :
    driverAction name = .skipped := by
  rw [driverAction, if_pos ⟨h1, h2⟩]

theorem driverAction_gz_plain {name : List Char}
    (hx : extension name = some "gz".toList)
    (hng : listEndsWith name ".tar.gz".toList = false) :
    driverAction name = .createdEmpty (name ++ "_logs.txt".toList) := by
  have hng' : listEndsWith name ['.', 't', 'a', 'r', '.', 'g', 'z'] = false := hng
  simp [driverAction, hx, hng, hng',
    dataset_stem_plain hng (ext_gz_not_ends_zip hx)]

theorem tarOutBytes_append (i1 i2 : List (Except LineErr (List Nat))) :
    tarOutBytes (i1 ++ i2) = tarOutBytes i1 ++ tarOutBytes i2 := by
  induction i1 with
  | nil => simp [tarOutBytes]
  | cons i rest ih =>
    cases i with
    | ok l => simp [tarOutBytes, ih]
    | error e => simp [tarOutBytes, ih]

theorem errCount_append (i1 i2 : List (Except LineErr (List Nat))) :
    errCount (i1 ++ i2) = errCount i1 + errCount i2 := by
  induction i1 with
  | nil => simp [errCount]
  | cons i rest ih =>
    cases i with
    | ok l => simp [errCount, ih]
    | error e => simp [errCount, ih]; omega

theorem stream_tar_gz_no_files (tl : List TarEntry) :
    ∀ s, (∀ en ∈ tl, en.etype.is_file = false) → stream_tar_gz (tl.map .ok) s = .ok s := by
  induction tl with
  | nil => intro s _; rfl
  | cons en rest ih =>
    intro s h
    have hf : en.etype.is_file = false := h en (by simp)
    rw [List.map_cons, show stream_tar_gz (.ok en :: rest.map .ok) s =
      stream_tar_gz (rest.map .ok) s by simp [stream_tar_gz, hf]]
    exact ih s (fun e he => h e (by simp [he]))

theorem stream_zip_no_files (zl : List ZipEntry) :
    ∀ s, (∀ z ∈ zl, z.is_file = false) → stream_zip (zl.map .ok) s = .ok s := by
  induction zl with
  | nil => intro s _; rfl
  | cons z rest ih =>
    intro s h
    have hf : z.is_file = false := h z (by simp)
    rw [List.map_cons, show stream_zip (.ok z :: rest.map .ok) s =
      stream_zip (rest.map .ok) s by simp [stream_zip, hf]]
    exact ih s (fun e he => h e (by simp [he]))

/-! ### Claim theorems -/

/-- Claim C1, counterexample: the original invariant fails on the zip
path.  A zip archive with one regular-file entry of empty content has 0
source lines across its entries, yet `stream_zip` writes one `\n`, i.e.
one output line — so the output line count exceeds the source line sum
even though the zip path skips nothing. -/
theorem claim_C1_counterexample :
    stream_zip [.ok { is_file := true, content := [] }] sink0 =
      .ok { out := [10], diags := 0, budget := none } ∧
    lineCount [10] = 1 ∧
    zipSrcLines [{ is_file := true, content := [] }] = 0 ∧
    ¬ lineCount [10] ≤ zipSrcLines [{ is_file := true, content := [] }] :=
  ⟨rfl, rfl, rfl, by decide⟩

/-- Claim C1, amended: in the tar path the invariant holds — the output
line count plus the number of skipped invalid-UTF-8 lines equals the sum
of source line counts across regular-file entries, so output lines never
exceed that sum (and are short of it exactly by the skipped lines), and
the regular-file sum is at most the all-entry sum.  In the zip path the
output line count is instead the sum over file entries of (embedded `\n`
count + 1), which exceeds the entries' source line count by one for each
file entry whose content is empty or newline-terminated. -/
theorem claim_C1_amended (l : List (EntryType × List Nat)) (zl : List ZipEntry) :
    (∃ s, stream_tar_gz (pureTarArchive l) sink0 = .ok s ∧
      lineCount s.out + tarArchiveErrs l = srcLinesFiles l ∧
      srcLinesFiles l ≤ srcLinesAll l) ∧
    (∃ s, stream_zip (zl.map .ok) sink0 = .ok s ∧
      lineCount s.out = zipNlPlusOne zl) := by
  constructor
  · refine ⟨{ out := tarArchiveBytes l, diags := tarArchiveErrs l, budget := none },
      ?_, ?_, srcLinesFiles_le_all l⟩
    · simpa [sink0] using stream_tar_gz_pure l [] 0
    · show lineCount (tarArchiveBytes l) + tarArchiveErrs l = srcLinesFiles l
      rw [lineCount_of_nlClosed _ (nlClosed_tarArchiveBytes l)]
      exact count_tarArchiveBytes l
  · refine ⟨{ out := zipOutBytes zl, diags := 0, budget := none }, ?_, ?_⟩
    · simpa [sink0] using stream_zip_pure zl [] 0
    · show lineCount (zipOutBytes zl) = zipNlPlusOne zl
      exact lineCount_zipOutBytes zl

/-- Claim C2: in the tar path an invalid-UTF-8 line is dropped and only
diagnosed, never fatal.  For every archive of raw-byte entries the
extraction returns success, the written bytes are exactly the `Ok` lines
of each regular entry (each followed by one `\n`) and the diagnostic
count is exactly the number of failed lines; and at the item level a
failed line contributes no bytes, adds exactly one diagnostic, and the
items after it are still processed. -/
theorem claim_C2 (l : List (EntryType × List Nat)) :
    (stream_tar_gz (pureTarArchive l) sink0 =
      .ok { out := tarArchiveBytes l, diags := tarArchiveErrs l, budget := none }) ∧
    (∀ i1 i2 e, tarOutBytes (i1 ++ .error e :: i2) = tarOutBytes i1 ++ tarOutBytes i2 ∧
      errCount (i1 ++ .error e :: i2) = errCount i1 + errCount i2 + 1) := by
  constructor
  · simpa [sink0] using stream_tar_gz_pure l [] 0
  · intro i1 i2 e
    constructor
    · rw [tarOutBytes_append]
      rfl
    · rw [errCount_append]
      simp [errCount]
      omega

/-- Claim C3, counterexample: a mid-entry read failure in the tar path is
not fatal.  `BufRead::lines` delivers a read failure as an `Err` item of
the line stream, and `stream_tar_gz` matches any `Err` item into the
skip-and-continue arm: on an entry whose stream is
`[Ok "a", Err(read), Ok "b"]` it writes "a\nb\n", emits one diagnostic
and returns success instead of the error the claim requires. -/
theorem claim_C3_counterexample :
    stream_tar_gz
        [.ok { etype := .regular, items := [.ok [97], .error .ioRead, .ok [98]] }]
        sink0 =
      .ok { out := [97, 10, 98, 10], diags := 1, budget := none } ∧
    exceptOk (stream_tar_gz
        [.ok { etype := .regular, items := [.ok [97], .error .ioRead, .ok [98]] }]
        sink0) = true :=
  ⟨rfl, rfl⟩

/-- Claim C3, amended: entry-iteration failures and write failures are
fatal in both paths with no continuation — an `entry?`/`by_index(i)?`
failure anywhere makes the whole extraction fail whatever follows it, and
a write budget smaller than the bytes to be written makes it fail — but a
mid-entry read failure in the tar path arrives as a failed `lines()` item
and is skipped with one diagnostic exactly like an invalid-UTF-8 line
(the surrounding lines are still written), not treated as fatal. -/
theorem claim_C3_amended :
    (∀ pre post s e, exceptOk (stream_tar_gz (pre ++ .error e :: post) s) = false) ∧
    (∀ pre post s e, exceptOk (stream_zip (pre ++ .error e :: post) s) = false) ∧
    (∀ l o d k, k < (tarArchiveBytes l).length →
      exceptOk (stream_tar_gz (pureTarArchive l)
        { out := o, diags := d, budget := some k }) = false) ∧
    (∀ zl o d k, k < (zipOutBytes zl).length →
      exceptOk (stream_zip (zl.map .ok)
        { out := o, diags := d, budget := some k }) = false) ∧
    (∀ i1 i2 e s, s.budget = none →
      writeTarLines (i1 ++ .error e :: i2) s =
        .ok { out := s.out ++ (tarOutBytes i1 ++ tarOutBytes i2),
              diags := s.diags + (errCount i1 + errCount i2 + 1), budget := none }) := by
  refine ⟨stream_tar_gz_error_after, stream_zip_error_after, ?_, ?_, ?_⟩
  · intro l o d k hk
    cases h : stream_tar_gz (pureTarArchive l) { out := o, diags := d, budget := some k } with
    | error e => rfl
    | ok s' => exact absurd (stream_tar_gz_budget l o d k s' h) (by omega)
  · intro zl o d k hk
    cases h : stream_zip (zl.map .ok) { out := o, diags := d, budget := some k } with
    | error e => rfl
    | ok s' => exact absurd (stream_zip_budget zl o d k s' h) (by omega)
  · intro i1 i2 e s hb
    obtain ⟨o, d, b⟩ := s
    simp only at hb
    subst hb
    rw [writeTarLines_none, tarOutBytes_append, errCount_append,
      show tarOutBytes (Except.error e :: i2) = tarOutBytes i2 from rfl,
      show errCount (Except.error e :: i2) = errCount i2 + 1 from rfl]
    simp [Nat.add_assoc]

/-- Claim C3, witness: the amended statement at concrete inputs — an
injected entry error fails both extractors, a zero write budget fails
both on one-line archives, and a failed line item alone yields success
with one diagnostic. -/
theorem claim_C3_witness :
    exceptOk (stream_tar_gz ([] ++ .error () :: []) sink0) = false ∧
    exceptOk (stream_zip ([] ++ .error () :: []) sink0) = false ∧
    0 < (tarArchiveBytes [(EntryType.regular, [97])]).length ∧
    exceptOk (stream_tar_gz (pureTarArchive [(EntryType.regular, [97])])
      { out := [], diags := 0, budget := some 0 }) = false ∧
    0 < (zipOutBytes [{ is_file := true, content := [97] }]).length ∧
    exceptOk (stream_zip (([{ is_file := true, content := [97] }] : List ZipEntry).map .ok)
      { out := [], diags := 0, budget := some 0 }) = false ∧
    writeTarLines ([] ++ .error LineErr.ioRead :: []) sink0 =
      .ok { out := [], diags := 1, budget := none } := by
  have h := claim_C3_amended
  refine ⟨h.1 [] [] sink0 (), h.2.1 [] [] sink0 (), by decide,
    h.2.2.1 [(EntryType.regular, [97])] [] 0 0 (by decide), by decide,
    h.2.2.2.1 [{ is_file := true, content := [97] }] [] 0 0 (by decide), ?_⟩
  exact (h.2.2.2.2 [] [] LineErr.ioRead sink0 rfl).trans (by decide)

/-- Claim C4: a zip archive with exactly two regular-file entries of raw
contents "a" and "b" produces exactly the bytes "a\nb\n" — one
terminator appended per entry, entry bytes copied verbatim. -/
theorem claim_C4 :
    stream_zip [.ok { is_file := true, content := [97] },
                .ok { is_file := true, content := [98] }] sink0 =
      .ok { out := [97, 10, 98, 10], diags := 0, budget := none } := rfl

/-- Claim C5: a tar.gz archive with one regular-file entry whose bytes
hold N valid-UTF-8 lines and M invalid ones interleaved (N = the `Ok`
items of the entry's line stream, M = the `Err` items, N + M = the
entry's line count) yields exactly the N valid lines: the output is their
concatenation each followed by one `\n`, and both its `\n` count and its
line count equal N. -/
theorem claim_C5 (c : List Nat) :
    stream_tar_gz (pureTarArchive [(EntryType.regular, c)]) sink0 =
      .ok { out := tarOutBytes (lineItemsOf c), diags := errCount (lineItemsOf c),
            budget := none } ∧
    lineCount (tarOutBytes (lineItemsOf c)) = okCount (lineItemsOf c) ∧
    (tarOutBytes (lineItemsOf c)).count 10 = okCount (lineItemsOf c) ∧
    okCount (lineItemsOf c) + errCount (lineItemsOf c) = lineCount c := by
  refine ⟨?_, lineCount_tarOutBytes_lineItems c, count_tarOutBytes_lineItems c, ?_⟩
  · have h := stream_tar_gz_pure [(EntryType.regular, c)] [] 0
    simpa [sink0, tarArchiveBytes, tarArchiveErrs, EntryType.is_file] using h
  · rw [← lineItemsOf_length c]
    exact okCount_add_errCount _

/-- Claim C6, counterexample: a plain ".gz" file that is not a ".tar.gz"
is not skipped silently.  Its extension is `gz`, so it passes the
driver's pre-filter; the output file is created (truncating) before the
dispatch match, whose guard then fails and falls through to `continue`,
leaving an empty "foo.gz_logs.txt" behind. -/
theorem claim_C6_counterexample :
    driverAction "foo.gz".toList = .createdEmpty "foo.gz_logs.txt".toList ∧
    driverAction "foo.gz".toList ≠ .skipped := by
  refine ⟨by decide, by decide⟩

/-- Claim C6, amended: a file whose extension (the part after the last
dot) is neither `gz` nor `zip` is skipped silently with no output file —
this covers every name ending in neither ".tar.gz" nor ".zip" except
plain ".gz" files: for a name with extension `gz` that does not end in
".tar.gz", the driver creates (truncates) an empty `<fullname>_logs.txt`
before the dispatch match falls through, so nothing is written to it but
the file does get created. -/
theorem claim_C6_amended (name : List Char) :
    (extension name ≠ some "gz".toList → extension name ≠ some "zip".toList →
      driverAction name = .skipped) ∧
    (extension name = some "gz".toList → listEndsWith name ".tar.gz".toList = false →
      driverAction name = .createdEmpty (name ++ "_logs.txt".toList)) :=
  ⟨fun h1 h2 => driverAction_skipped h1 h2, fun hx hng => driverAction_gz_plain hx hng⟩

/-- Claim C6, witness: "a.txt" (extension `txt`) is skipped; "foo.gz"
gets an empty output file created. -/
theorem claim_C6_witness :
    driverAction "a.txt".toList = .skipped ∧
    driverAction "foo.gz".toList = .createdEmpty ("foo.gz".toList ++ "_logs.txt".toList) :=
  ⟨(claim_C6_amended "a.txt".toList).1 (by decide) (by decide),
   (claim_C6_amended "foo.gz".toList).2 (by decide) (by decide)⟩

/-- Claim C7: every input the driver dispatches is stemmed by stripping
the recognized archive suffix and appending "_logs.txt", and the
stripping is exact (stem ++ suffix = name), so no file is mis-stemmed;
".tar.gz" is checked before ".zip" and the two suffixes are mutually
exclusive.  Concretely, "Spark.tar.gz" yields "Spark_logs.txt" and
"Android_v2.zip" yields "Android_v2_logs.txt".  (A file named exactly
".zip" is never dispatched: `Path::extension` gives it no extension, so
the driver skips it before naming.) -/
theorem claim_C7 :
    (∀ name : List Char, listEndsWith name ".tar.gz".toList = true →
      driverAction name = .runTarGz (dataset_stem name ++ "_logs.txt".toList) ∧
      dataset_stem name ++ ".tar.gz".toList = name) ∧
    (∀ name : List Char, listEndsWith name ".zip".toList = true → name ≠ ".zip".toList →
      driverAction name = .runZip (dataset_stem name ++ "_logs.txt".toList) ∧
      dataset_stem name ++ ".zip".toList = name) ∧
    driverAction "Spark.tar.gz".toList = .runTarGz "Spark_logs.txt".toList ∧
    driverAction "Android_v2.zip".toList = .runZip "Android_v2_logs.txt".toList := by
  refine ⟨?_, ?_, by decide, by decide⟩
  · intro name h
    obtain ⟨pre, hp⟩ := listEndsWith_decomp h
    have hstem : dataset_stem name = pre := by
      rw [dataset_stem_of_tarGz h, hp]
      exact take_strip pre _
    constructor
    · rw [driverAction_of_tarGz h, dataset_stem_of_tarGz h]
    · rw [hstem, hp]
  · intro name h hne
    obtain ⟨pre, hp⟩ := listEndsWith_decomp h
    have hstem : dataset_stem name = pre := by
      rw [dataset_stem_of_zip h, hp]
      exact take_strip pre _
    constructor
    · rw [driverAction_of_zip h hne, dataset_stem_of_zip h]
    · rw [hstem, hp]

/-- Claim C7, witness: the quantified parts of C7 applied to the two
concrete names of the spec. -/
theorem claim_C7_witness :
    (driverAction "Spark.tar.gz".toList =
      .runTarGz (dataset_stem "Spark.tar.gz".toList ++ "_logs.txt".toList) ∧
     dataset_stem "Spark.tar.gz".toList ++ ".tar.gz".toList = "Spark.tar.gz".toList) ∧
    (driverAction "Android_v2.zip".toList =
      .runZip (dataset_stem "Android_v2.zip".toList ++ "_logs.txt".toList) ∧
     dataset_stem "Android_v2.zip".toList ++ ".zip".toList = "Android_v2.zip".toList) :=
  ⟨claim_C7.1 "Spark.tar.gz".toList (by decide),
   claim_C7.2.1 "Android_v2.zip".toList (by decide) (by decide)⟩

/-- Claim C8: the output file is created with truncation on every run, so
a run's result is independent of the output file's prior content, and
rerunning the conversion on an unchanged input reproduces the output
byte-identically for both extractors — no accumulation across runs. -/
theorem claim_C8 (prior : List Nat) (tEntries : List (Except Unit TarEntry))
    (zEntries : List (Except Unit ZipEntry)) :
    runTarGzFile prior tEntries = runTarGzFile [] tEntries ∧
    runZipFile prior zEntries = runZipFile [] zEntries ∧
    (∀ c, runTarGzFile prior tEntries = .ok c → runTarGzFile c tEntries = .ok c) ∧
    (∀ c, runZipFile prior zEntries = .ok c → runZipFile c zEntries = .ok c) := by
  refine ⟨rfl, rfl, ?_, ?_⟩
  · intro c h
    exact (show runTarGzFile c tEntries = runTarGzFile prior tEntries from rfl).trans h
  · intro c h
    exact (show runZipFile c zEntries = runZipFile prior zEntries from rfl).trans h

/-- Claim C8, witness: two successive runs over the same one-entry
archives, starting from junk prior content, produce identical bytes. -/
theorem claim_C8_witness :
    runTarGzFile [55] (pureTarArchive [(EntryType.regular, [97])]) = .ok [97, 10] ∧
    runTarGzFile [97, 10] (pureTarArchive [(EntryType.regular, [97])]) = .ok [97, 10] ∧
    runZipFile [55] [.ok { is_file := true, content := [98] }] = .ok [98, 10] ∧
    runZipFile [98, 10] [.ok { is_file := true, content := [98] }] = .ok [98, 10] := by
  have h := claim_C8 [55] (pureTarArchive [(EntryType.regular, [97])])
    [.ok { is_file := true, content := [98] }]
  exact ⟨by decide, h.2.2.1 [97, 10] (by decide), by decide, h.2.2.2 [98, 10] (by decide)⟩

/-- Claim C9: an archive (tar or zip) all of whose entries are
non-regular (directories, symlinks, special files / `is_file() = false`)
writes nothing: both extractors return the sink unchanged, so a fresh
output file stays empty. -/
theorem claim_C9 (tl : List TarEntry) (zl : List ZipEntry) (s : Sink)
    (ht : ∀ en ∈ tl, en.etype.is_file = false)
    (hz : ∀ z ∈ zl, z.is_file = false) :
    stream_tar_gz (tl.map .ok) s = .ok s ∧ stream_zip (zl.map .ok) s = .ok s :=
  ⟨stream_tar_gz_no_files tl s ht, stream_zip_no_files zl s hz⟩

/-- Claim C9, witness: a tar archive with a directory entry and a zip
archive with a non-file entry leave the fresh sink untouched. -/
theorem claim_C9_witness :
    stream_tar_gz (List.map Except.ok
      ([{ etype := .directory, items := [.ok [97]] }] : List TarEntry)) sink0 =
      .ok sink0 ∧
    stream_zip (List.map Except.ok
      ([{ is_file := false, content := [97] }] : List ZipEntry)) sink0 = .ok sink0 :=
  claim_C9 [{ etype := .directory, items := [.ok [97]] }]
    [{ is_file := false, content := [97] }] sink0 (by decide) (by decide)

/-- Claim C10, counterexample: tar output can contain `\r\n` even though
the claim says it never does.  For the source bytes "a\r\nb\r" (which
contain `\r\n`), the terminated first line has its `\r` stripped, but the
final unterminated line "b\r" keeps its trailing `\r` and still receives
the appended `\n`, so the output "a\nb\r\n" contains `\r\n`. -/
theorem claim_C10_counterexample :
    containsSeq [97, 13, 10, 98, 13] [13, 10] = true ∧
    stream_tar_gz (pureTarArchive [(EntryType.regular, [97, 13, 10, 98, 13])]) sink0 =
      .ok { out := [97, 10, 98, 13, 10], diags := 0, budget := none } ∧
    containsSeq [97, 10, 98, 13, 10] [13, 10] = true :=
  ⟨rfl, rfl, rfl⟩

/-- Claim C10, amended: the tar path emits each decoded line followed by
exactly one `\n`; a `\r` directly before a line's `\n` terminator is
stripped, and a final source line lacking a terminator still receives
one, so tar output is empty or `\n`-terminated.  But only the `\r` of a
CRLF pair is stripped: a final unterminated line keeps a trailing `\r`
(and a line ending `\r\r\n` keeps one `\r`), so tar output can still
contain `\r\n`.  The zip path copies each file entry's bytes verbatim
plus one `\n` per entry. -/
theorem claim_C10_amended :
    (∀ c, stream_tar_gz (pureTarArchive [(EntryType.regular, c)]) sink0 =
      .ok { out := tarOutBytes (lineItemsOf c), diags := errCount (lineItemsOf c),
            budget := none }) ∧
    (∀ seg, utf8Valid (seg ++ [10]) = true → seg.getLast? = some 13 →
      lineItemOf seg true = .ok seg.dropLast) ∧
    (∀ seg, utf8Valid seg = true → lineItemOf seg false = .ok seg) ∧
    (∀ items, nlClosed (tarOutBytes items)) ∧
    (∀ zl o d, stream_zip (zl.map .ok) { out := o, diags := d, budget := none } =
      .ok { out := o ++ zipOutBytes zl, diags := d, budget := none }) := by
  refine ⟨?_, ?_, ?_, nlClosed_tarOutBytes, fun zl o d => stream_zip_pure zl o d⟩
  · intro c
    have h := stream_tar_gz_pure [(EntryType.regular, c)] [] 0
    simpa [sink0, tarArchiveBytes, tarArchiveErrs, EntryType.is_file] using h
  · intro seg hv h13
    simp [lineItemOf, hv, stripTrailCR, h13]
  · intro seg hv
    simp [lineItemOf, hv]

/-- Claim C10, witness: the amended statement at concrete inputs — a
CRLF-terminated segment "a\r" is stripped to "a", an unterminated
segment "b\r" keeps its `\r`, and the source "a\r\n" produces "a\n". -/
theorem claim_C10_witness :
    lineItemOf [97, 13] true = .ok [97] ∧
    lineItemOf [98, 13] false = .ok [98, 13] ∧
    stream_tar_gz (pureTarArchive [(EntryType.regular, [97, 13, 10])]) sink0 =
      .ok { out := [97, 10], diags := 0, budget := none } := by
  have h := claim_C10_amended
  refine ⟨(h.2.1 [97, 13] (by decide) (by decide)).trans (by decide),
    h.2.2.1 [98, 13] (by decide), (h.1 [97, 13, 10]).trans (by decide)⟩

end LoghubConverter
